import Mathlib

/-!
Verification of the Go DSA collection: a singly linked list
(src/go/data_structures/linked_list/linked_list.go), merge-sort utilities
(src/go/algorithms/sorting/merge_sort.go) and binary-search utilities
(the unnamed Go file with FindInsertionPoint).

The Go code is embedded shallowly: the nil-terminated acyclic node chain of
the linked list is a Lean `List Int` (Go `int` values), the cached `Size`
field is an `Int` (Go `int`), and every Go method becomes a Lean function
on the `LinkedList` record.  Mutating Go methods return the new list state;
fallible ones pair an `Except` result with the state, mirroring the Go
`(value, error)` returns.  Go `fmt.Errorf` messages are mapped to the error
taxonomy: `emptyList` for "cannot delete from empty list" / "list is empty",
`invalidPosition pos` for "invalid position: %d".
-/

namespace DSA

/-- Error taxonomy of the linked-list module. -/
inductive LLError
  | emptyList
  | invalidPosition (pos : Int)
deriving DecidableEq

/-- `type LinkedList struct { Head *Node; Size int }`: the `Head` pointer
chain (nil-terminated, acyclic) is the Lean list of the node `Data` fields
in order; `Size` is the cached count. -/
structure LinkedList where
  Head : List Int
  Size : Int
deriving DecidableEq

/-- `NewLinkedList`: the empty list. -/
def NewLinkedList : LinkedList := { Head := [], Size := 0 }

/-- `IsEmpty`: `ll.Head == nil`. -/
def IsEmpty (ll : LinkedList) : Bool := ll.Head.isEmpty

/-- `Length`: returns the cached `Size`. -/
def Length (ll : LinkedList) : Int := ll.Size

/-- `Prepend`: new node in front of the current head, `Size++`. -/
def Prepend (ll : LinkedList) (data : Int) : LinkedList :=
  { Head := data :: ll.Head, Size := ll.Size + 1 }

/-- The `Append` traversal: walk to the last node and attach a new node. -/
def appendChain (data : Int) : List Int → List Int
  | [] => [data]
  | x :: xs => x :: appendChain data xs

/-- `Append`: empty list gets the new node as head, otherwise the traversal
attaches it at the end; `Size++` in both cases. -/
def Append (ll : LinkedList) (data : Int) : LinkedList :=
  if IsEmpty ll then { Head := [data], Size := ll.Size + 1 }
  else { Head := appendChain data ll.Head, Size := ll.Size + 1 }

/-- The `InsertAt` traversal: walk `k` steps from the head to `current`,
then splice the new node between `current` and `current.Next`.  The `[]`
cases are unreachable when `Size` matches the chain length (the Go code
would dereference nil there). -/
def spliceChain (data : Int) : Nat → List Int → List Int
  | 0, [] => [data]
  | 0, x :: xs => x :: data :: xs
  | _ + 1, [] => [data]
  | k + 1, x :: xs => x :: spliceChain data k xs

/-- `InsertAt`: positions outside `0..Size` fail with `invalidPosition`
before any mutation; position `0` delegates to `Prepend`; otherwise the
traversal splices after the node at index `position - 1` and `Size++`. -/
def InsertAt (ll : LinkedList) (data position : Int) :
    Except LLError Unit × LinkedList :=
  if position < 0 ∨ position > ll.Size then
    (Except.error (LLError.invalidPosition position), ll)
  else if position = 0 then
    (Except.ok (), Prepend ll data)
  else
    (Except.ok (), { Head := spliceChain data (position.toNat - 1) ll.Head,
                     Size := ll.Size + 1 })

/-- `DeleteFirst`: empty list fails with `emptyList`; otherwise the head
node is unlinked, its data returned, `Size--`. -/
def DeleteFirst (ll : LinkedList) : Except LLError Int × LinkedList :=
  match ll.Head with
  | [] => (Except.error LLError.emptyList, ll)
  | x :: xs => (Except.ok x, { Head := xs, Size := ll.Size - 1 })

/-- The `DeleteLast` traversal: single node clears the list, otherwise walk
to the second-to-last node and clear its successor.  The `[]` case is
unreachable (the caller guards with `IsEmpty`). -/
def deleteLastChain : List Int → Int × List Int
  | [] => (0, [])
  | [x] => (x, [])
  | x :: y :: xs =>
    let r := deleteLastChain (y :: xs)
    (r.1, x :: r.2)

/-- `DeleteLast`: empty list fails with `emptyList`; otherwise the last
node is removed, its data returned, `Size--`. -/
def DeleteLast (ll : LinkedList) : Except LLError Int × LinkedList :=
  match ll.Head with
  | [] => (Except.error LLError.emptyList, ll)
  | l =>
    let r := deleteLastChain l
    (Except.ok r.1, { Head := r.2, Size := ll.Size - 1 })

/-- The `DeleteAt` traversal: walk `k` steps to `current`, unlink
`current.Next` and return its data.  The fallback case is unreachable
when the position guard and the size invariant hold. -/
def deleteAtChain : Nat → List Int → Int × List Int
  | 0, x :: y :: xs => (y, x :: xs)
  | k + 1, x :: xs =>
    let r := deleteAtChain k xs
    (r.1, x :: r.2)
  | _, l => (0, l)

/-- `DeleteAt`: positions outside `0..Size-1` fail with `invalidPosition`
before any mutation; position `0` delegates to `DeleteFirst`; otherwise the
traversal unlinks the node at `position` and `Size--`. -/
def DeleteAt (ll : LinkedList) (position : Int) : Except LLError Int × LinkedList :=
  if position < 0 ∨ position ≥ ll.Size then
    (Except.error (LLError.invalidPosition position), ll)
  else if position = 0 then
    DeleteFirst ll
  else
    let r := deleteAtChain (position.toNat - 1) ll.Head
    (Except.ok r.1, { Head := r.2, Size := ll.Size - 1 })

/-- The `DeleteByValue` loop over the tail: unlink the first node whose
data equals `value`, reporting whether one was found. -/
def deleteByValueChain (value : Int) : List Int → Bool × List Int
  | [] => (false, [])
  | y :: ys =>
    if y = value then (true, ys)
    else
      let r := deleteByValueChain value ys
      (r.1, y :: r.2)

/-- `DeleteByValue`: empty list returns `false`; a matching head delegates
to `DeleteFirst`; otherwise the loop scans `current.Next` and unlinks the
first match (`Size--`), returning whether a removal occurred. -/
def DeleteByValue (ll : LinkedList) (value : Int) : Bool × LinkedList :=
  match ll.Head with
  | [] => (false, ll)
  | x :: xs =>
    if x = value then
      (true, { Head := xs, Size := ll.Size - 1 })
    else
      let r := deleteByValueChain value xs
      if r.1 then (true, { Head := x :: r.2, Size := ll.Size - 1 })
      else (false, ll)

/-- The `Search` loop: walk the chain with a running index, returning the
index of the first match, `-1` when the chain is exhausted. -/
def searchChain (value : Int) : List Int → Int → Int
  | [], _ => -1
  | x :: xs, index => if x = value then index else searchChain value xs (index + 1)

/-- `Search`: index of the first node holding `value`, or the not-found
sentinel `-1`.  The argument is a value to look for, not a position; the
function has no error return. -/
def Search (ll : LinkedList) (value : Int) : Int :=
  searchChain value ll.Head 0

/-- The `Get` traversal: walk `position` steps and read the data.  The `[]`
case is unreachable when the position guard and the size invariant hold. -/
def getChain : Nat → List Int → Int
  | 0, x :: _ => x
  | k + 1, _ :: xs => getChain k xs
  | _, [] => 0

/-- `Get`: positions outside `0..Size-1` fail with `invalidPosition`;
otherwise the traversal reads the data at `position`.  The method never
writes the receiver. -/
def Get (ll : LinkedList) (position : Int) : Except LLError Int :=
  if position < 0 ∨ position ≥ ll.Size then
    Except.error (LLError.invalidPosition position)
  else
    Except.ok (getChain position.toNat ll.Head)

/-- The `Reverse` loop: `prev` accumulates the already-rewired front while
`current` walks the remaining chain. -/
def reverseChain : List Int → List Int → List Int
  | prev, [] => prev
  | prev, x :: xs => reverseChain (x :: prev) xs

/-- `Reverse`: in-place pointer reversal; `Size` is not touched. -/
def Reverse (ll : LinkedList) : LinkedList :=
  { Head := reverseChain [] ll.Head, Size := ll.Size }

/-- The `FindMiddle` slow/fast loop, tracked by the chain suffixes at the
two cursors: `fast` advances two nodes per iteration, `slow` one, until
`fast` or `fast.Next` is nil; the result is the suffix at `slow`. -/
def findMiddleChain : List Int → List Int → List Int
  | slow, _ :: _ :: fast => findMiddleChain (slow.drop 1) fast
  | slow, _ => slow

/-- `FindMiddle`: empty list fails with `emptyList`; otherwise the slow
cursor's node after the slow/fast loop supplies the value.  The `[]` inner
case is unreachable: the slow cursor never passes the end of the chain. -/
def FindMiddle (ll : LinkedList) : Except LLError Int :=
  match ll.Head with
  | [] => Except.error LLError.emptyList
  | l =>
    match findMiddleChain l l with
    | d :: _ => Except.ok d
    | [] => Except.ok 0

/-- The `HasCycle` slow/fast loop.  On an acyclic chain, node identity is
position in the chain, so the cursors are tracked as indices: `fast < n`
embeds `fast != nil` and `fast + 1 < n` embeds `fast.Next != nil`; the
`slow == fast` pointer comparison is index equality.  The fuel bounds the
iteration count; `n` iterations always suffice since `fast` grows by two
per step and is bounded by `n`. -/
def hasCycleLoop (n : Nat) : Nat → Nat → Nat → Bool
  | 0, _, _ => false
  | fuel + 1, slow, fast =>
    if fast < n ∧ fast + 1 < n then
      let slow2 := slow + 1
      let fast2 := fast + 2
      if slow2 = fast2 then true
      else hasCycleLoop n fuel slow2 fast2
    else false

/-- `HasCycle`: Floyd's cycle detection; empty list returns `false`,
otherwise both cursors start at the head (index 0). -/
def HasCycle (ll : LinkedList) : Bool :=
  match ll.Head with
  | [] => false
  | l => hasCycleLoop l.length l.length 0 0

/-- The `RemoveDuplicates` loop over the tail: `seen` is the set of values
already kept (a Go `map[int]bool`, modeled by membership in a list);
duplicates are unlinked and counted, novel values are kept and recorded.
Returns the surviving tail and the number of removals. -/
def removeDupChain : List Int → List Int → List Int × Nat
  | _, [] => ([], 0)
  | seen, y :: ys =>
    if y ∈ seen then
      let r := removeDupChain seen ys
      (r.1, r.2 + 1)
    else
      let r := removeDupChain (y :: seen) ys
      (y :: r.1, r.2)

/-- `RemoveDuplicates`: empty list is untouched; otherwise the head is
always kept (seeded into `seen`) and the loop prunes the tail, with `Size`
decremented once per removal. -/
def RemoveDuplicates (ll : LinkedList) : LinkedList :=
  match ll.Head with
  | [] => ll
  | x :: xs =>
    let r := removeDupChain [x] xs
    { Head := x :: r.1, Size := ll.Size - (r.2 : Int) }

/-- `ToSlice`: the traversal materializes exactly the chain of data fields,
which is the `Head` list itself in this embedding. -/
def ToSlice (ll : LinkedList) : List Int := ll.Head

/-- `Clear`: reset to the empty list. -/
def Clear (_ : LinkedList) : LinkedList := { Head := [], Size := 0 }

/-- The size invariant: the cached `Size` equals the number of nodes
reachable from `Head` to the nil terminator. -/
def SizeInv (ll : LinkedList) : Prop := ll.Size = (ll.Head.length : Int)

instance (ll : LinkedList) : Decidable (SizeInv ll) := by
  unfold SizeInv; infer_instance

/-- List states reachable from the empty list through the public mutating
operations (failed calls leave the state unchanged, so the fallible
operations appear with arbitrary arguments). -/
inductive Reachable : LinkedList → Prop
  | empty : Reachable NewLinkedList
  | prepend {ll} (d : Int) : Reachable ll → Reachable (Prepend ll d)
  | append {ll} (d : Int) : Reachable ll → Reachable (Append ll d)
  | insertAt {ll} (d p : Int) : Reachable ll → Reachable (InsertAt ll d p).2
  | deleteFirst {ll} : Reachable ll → Reachable (DeleteFirst ll).2
  | deleteLast {ll} : Reachable ll → Reachable (DeleteLast ll).2
  | deleteAt {ll} (p : Int) : Reachable ll → Reachable (DeleteAt ll p).2
  | deleteByValue {ll} (v : Int) : Reachable ll → Reachable (DeleteByValue ll v).2
  | reverse {ll} : Reachable ll → Reachable (Reverse ll)
  | removeDuplicates {ll} : Reachable ll → Reachable (RemoveDuplicates ll)
  | clear {ll} : Reachable ll → Reachable (Clear ll)

theorem appendChain_length (d : Int) (l : List Int) :
    (appendChain d l).length = l.length + 1 := by
  induction l with
  | nil => rfl
  | cons x xs ih => simp [appendChain, ih]

theorem spliceChain_length (d : Int) (k : Nat) (l : List Int) :
    (spliceChain d k l).length = l.length + 1 := by
  induction k generalizing l with
  | zero => cases l <;> simp [spliceChain]
  | succ k ih => cases l <;> simp [spliceChain, ih]

theorem deleteLastChain_length (l : List Int) :
    (deleteLastChain l).2.length = l.length - 1 := by
  induction l with
  | nil => rfl
  | cons x xs ih =>
    cases xs with
    | nil => rfl
    | cons y ys => simpa [deleteLastChain] using ih

theorem deleteAtChain_length (k : Nat) (l : List Int) (h : k + 1 < l.length) :
    (deleteAtChain k l).2.length = l.length - 1 := by
  induction k generalizing l with
  | zero =>
    match l, h with
    | x :: y :: xs, _ => simp [deleteAtChain]
  | succ k ih =>
    match l, h with
    | x :: xs, h =>
      have hx : k + 1 < xs.length := by simpa using h
      have := ih xs hx
      simp [deleteAtChain, this]
      omega

theorem deleteByValueChain_false (v : Int) (l : List Int)
    (h : (deleteByValueChain v l).1 = false) : (deleteByValueChain v l).2 = l := by
  induction l with
  | nil => rfl
  | cons y ys ih =>
    by_cases hy : y = v
    · simp [deleteByValueChain, hy] at h
    · simp only [deleteByValueChain, if_neg hy] at h ⊢
      rw [ih h]

theorem deleteByValueChain_true (v : Int) (l : List Int)
    (h : (deleteByValueChain v l).1 = true) :
    (deleteByValueChain v l).2.length + 1 = l.length := by
  induction l with
  | nil => simp [deleteByValueChain] at h
  | cons y ys ih =>
    by_cases hy : y = v
    · simp [deleteByValueChain, hy]
    · simp only [deleteByValueChain, if_neg hy, List.length_cons] at h ⊢
      have := ih h
      omega

theorem reverseChain_eq (p l : List Int) :
    reverseChain p l = l.reverse ++ p := by
  induction l generalizing p with
  | nil => rfl
  | cons x xs ih => simp [reverseChain, ih]

theorem removeDupChain_length (seen l : List Int) :
    (removeDupChain seen l).1.length + (removeDupChain seen l).2 = l.length := by
  induction l generalizing seen with
  | nil => rfl
  | cons y ys ih =>
    by_cases hy : y ∈ seen
    · simp only [removeDupChain, if_pos hy]
      have := ih seen
      simpa using by omega
    · simp only [removeDupChain, if_neg hy]
      have := ih (y :: seen)
      simp only [List.length_cons]
      omega

theorem sizeInv_prepend {ll : LinkedList} (d : Int) (h : SizeInv ll) :
    SizeInv (Prepend ll d) := by
  simp only [SizeInv, Prepend, List.length_cons] at *
  omega

theorem sizeInv_append {ll : LinkedList} (d : Int) (h : SizeInv ll) :
    SizeInv (Append ll d) := by
  simp only [SizeInv, Append] at *
  split <;> rename_i hemp
  · have : ll.Head = [] := by
      simpa [IsEmpty, List.isEmpty_iff] using hemp
    simp [this] at h
    simp
    omega
  · simp [appendChain_length]
    omega

theorem sizeInv_insertAt {ll : LinkedList} (d p : Int) (h : SizeInv ll) :
    SizeInv (InsertAt ll d p).2 := by
  simp only [InsertAt]
  split
  · simpa using h
  · split
    · exact sizeInv_prepend d h
    · simp only [SizeInv, spliceChain_length] at *
      omega

theorem sizeInv_deleteFirst {ll : LinkedList} (h : SizeInv ll) :
    SizeInv (DeleteFirst ll).2 := by
  simp only [DeleteFirst]
  match hh : ll.Head with
  | [] => simpa using h
  | x :: xs =>
    simp only [SizeInv, hh, List.length_cons] at *
    omega

theorem sizeInv_deleteLast {ll : LinkedList} (h : SizeInv ll) :
    SizeInv (DeleteLast ll).2 := by
  simp only [DeleteLast]
  match hh : ll.Head with
  | [] => simpa using h
  | x :: xs =>
    simp only [SizeInv, hh, deleteLastChain_length, List.length_cons] at *
    omega

theorem sizeInv_deleteAt {ll : LinkedList} (p : Int) (h : SizeInv ll) :
    SizeInv (DeleteAt ll p).2 := by
  simp only [DeleteAt]
  split <;> rename_i hguard
  · simpa using h
  · split
    · exact sizeInv_deleteFirst h
    · rename_i hzero
      have hlen : (p.toNat - 1) + 1 < ll.Head.length := by
        simp only [SizeInv] at h
        omega
      simp only [SizeInv, deleteAtChain_length _ _ hlen] at *
      omega

theorem sizeInv_deleteByValue {ll : LinkedList} (v : Int) (h : SizeInv ll) :
    SizeInv (DeleteByValue ll v).2 := by
  obtain ⟨hd, sz⟩ := ll
  cases hd with
  | nil => simpa [DeleteByValue] using h
  | cons x xs =>
    simp only [SizeInv, List.length_cons] at h
    by_cases hx : x = v
    · simp only [DeleteByValue, if_pos hx, SizeInv]
      omega
    · simp only [DeleteByValue, if_neg hx]
      cases hf : (deleteByValueChain v xs).1 with
      | false =>
        simp only [hf, Bool.false_eq_true, if_false, SizeInv, List.length_cons]
        omega
      | true =>
        have ht := deleteByValueChain_true v xs hf
        simp only [hf, if_true, SizeInv, List.length_cons]
        omega

theorem sizeInv_reverse {ll : LinkedList} (h : SizeInv ll) :
    SizeInv (Reverse ll) := by
  simp only [SizeInv, Reverse, reverseChain_eq] at *
  simpa using h

theorem sizeInv_removeDuplicates {ll : LinkedList} (h : SizeInv ll) :
    SizeInv (RemoveDuplicates ll) := by
  simp only [RemoveDuplicates]
  match hh : ll.Head with
  | [] => simpa using h
  | x :: xs =>
    have := removeDupChain_length [x] xs
    simp only [SizeInv, hh, List.length_cons] at *
    omega

theorem sizeInv_clear {ll : LinkedList} : SizeInv (Clear ll) := by
  simp [SizeInv, Clear]

theorem reachable_sizeInv {ll : LinkedList} (h : Reachable ll) : SizeInv ll := by
  induction h with
  | empty => simp [SizeInv, NewLinkedList]
  | prepend d _ ih => exact sizeInv_prepend d ih
  | append d _ ih => exact sizeInv_append d ih
  | insertAt d p _ ih => exact sizeInv_insertAt d p ih
  | deleteFirst _ ih => exact sizeInv_deleteFirst ih
  | deleteLast _ ih => exact sizeInv_deleteLast ih
  | deleteAt p _ ih => exact sizeInv_deleteAt p ih
  | deleteByValue v _ ih => exact sizeInv_deleteByValue v ih
  | reverse _ ih => exact sizeInv_reverse ih
  | removeDuplicates _ ih => exact sizeInv_removeDuplicates ih
  | clear _ _ => exact sizeInv_clear

/-- C1: every list state reachable from the empty list through the public
mutating operations has its cached `Size` equal to the number of nodes
reachable from `Head`, and `Head` is nil exactly when `Size` is zero. -/
theorem count_invariant_reachable {ll : LinkedList} (h : Reachable ll) :
    ll.Size = (ll.Head.length : Int) ∧ (ll.Head = [] ↔ ll.Size = 0) := by
  have hs := reachable_sizeInv h
  refine ⟨hs, ?_⟩
  rw [hs]
  constructor
  · intro he; simp [he]
  · intro he
    have : ll.Head.length = 0 := by exact_mod_cast he
    exact List.length_eq_zero.mp this

/-- C1 witness: the invariant at a concretely built state. -/
theorem count_invariant_reachable_witness :
    (Prepend NewLinkedList 7).Size = ((Prepend NewLinkedList 7).Head.length : Int) ∧
      ((Prepend NewLinkedList 7).Head = [] ↔ (Prepend NewLinkedList 7).Size = 0) :=
  count_invariant_reachable (Reachable.prepend 7 Reachable.empty)

theorem findMiddleChain_eq : ∀ (s f : List Int),
    findMiddleChain s f = s.drop (f.length / 2)
  | s, [] => by simp [findMiddleChain]
  | s, [x] => by simp [findMiddleChain]
  | s, x :: y :: f => by
    rw [show findMiddleChain s (x :: y :: f) = findMiddleChain (s.drop 1) f from rfl]
    rw [findMiddleChain_eq (s.drop 1) f, List.drop_drop]
    congr 1
    simp only [List.length_cons]
    omega

/-- C2 (amended): `FindMiddle` fails with `emptyList` on the empty list and
otherwise returns the value at 0-based index `⌊count / 2⌋` — the second of
the two middle elements when the count is even. -/
theorem findMiddle_spec (ll : LinkedList) :
    (ll.Head = [] → FindMiddle ll = Except.error LLError.emptyList) ∧
    (ll.Head ≠ [] →
      FindMiddle ll = Except.ok (ll.Head.getD (ll.Head.length / 2) 0)) := by
  constructor
  · intro he
    simp [FindMiddle, he]
  · intro hne
    obtain ⟨hd, sz⟩ := ll
    cases hd with
    | nil => simp at hne
    | cons x xs =>
      simp only [FindMiddle]
      have hlt : (x :: xs).length / 2 < (x :: xs).length := by
        simp only [List.length_cons]
        omega
      have hdrop := List.drop_eq_getElem_cons (l := x :: xs) hlt
      rw [findMiddleChain_eq, hdrop]
      rw [List.getD_eq_getElem _ _ hlt]

/-- C2 counterexample: on the two-element list `[1, 2]` the claim's index
`⌊(count − 1) / 2⌋ = 0` holds the value `1`, but `FindMiddle` returns `2`
(the value at index `⌊count / 2⌋ = 1`). -/
theorem findMiddle_counterexample :
    FindMiddle ⟨[1, 2], 2⟩ = Except.ok 2 ∧
      FindMiddle ⟨[1, 2], 2⟩ ≠
        Except.ok ((⟨[1, 2], 2⟩ : LinkedList).Head.getD ((2 - 1) / 2) 0) := by
  refine ⟨rfl, fun h => ?_⟩
  have h2 : (2 : Int) = 1 := Except.ok.inj h
  norm_num at h2

/-- C2 witness: `FindMiddle` on the five-element list `[1,2,3,4,5]`. -/
theorem findMiddle_spec_witness :
    FindMiddle ⟨[1, 2, 3, 4, 5], 5⟩ =
      Except.ok ((⟨[1, 2, 3, 4, 5], 5⟩ : LinkedList).Head.getD
        ((⟨[1, 2, 3, 4, 5], 5⟩ : LinkedList).Head.length / 2) 0) :=
  (findMiddle_spec ⟨[1, 2, 3, 4, 5], 5⟩).2 (by decide)

theorem searchChain_eq (v : Int) (l : List Int) (idx : Int) :
    searchChain v l idx = if v ∈ l then idx + (l.indexOf v : Int) else -1 := by
  induction l generalizing idx with
  | nil => simp [searchChain]
  | cons x xs ih =>
    by_cases hx : x = v
    · subst hx
      simp [searchChain, List.indexOf_cons_self]
    · rw [searchChain, if_neg hx, ih]
      have hvx : v ≠ x := Ne.symm hx
      have hmem : v ∈ x :: xs ↔ v ∈ xs := by simp [List.mem_cons, hvx]
      rw [List.indexOf_cons_ne _ hx]
      by_cases hv : v ∈ xs
      · rw [if_pos hv, if_pos (hmem.mpr hv), Nat.succ_eq_add_one]
        push_cast
        ring
      · rw [if_neg hv, if_neg (fun h => hv (hmem.mp h))]

/-- C3 (amended): `DeleteAt` and `Get` fail with `invalidPosition` for
position `-1` and for position `count`, leaving the list unchanged;
`Search` takes a value, not a position — it never fails, returning the
0-based index of the first occurrence or the sentinel `-1`. -/
theorem boundary_invalidPosition (ll : LinkedList) (v : Int) :
    (DeleteAt ll (-1)).1 = Except.error (LLError.invalidPosition (-1)) ∧
    (DeleteAt ll (-1)).2 = ll ∧
    (DeleteAt ll ll.Size).1 = Except.error (LLError.invalidPosition ll.Size) ∧
    (DeleteAt ll ll.Size).2 = ll ∧
    Get ll (-1) = Except.error (LLError.invalidPosition (-1)) ∧
    Get ll ll.Size = Except.error (LLError.invalidPosition ll.Size) ∧
    Search ll v = (if v ∈ ll.Head then (ll.Head.indexOf v : Int) else -1) := by
  have hneg : (-1 : Int) < 0 := by norm_num
  refine ⟨?_, ?_, ?_, ?_, ?_, ?_, ?_⟩
  · simp [DeleteAt, hneg]
  · simp [DeleteAt, hneg]
  · simp [DeleteAt, le_refl]
  · simp [DeleteAt, le_refl]
  · simp [Get, hneg]
  · simp [Get, le_refl]
  · rw [Search, searchChain_eq]
    simp

/-- C3 counterexample: `Search` with argument `-1` on the list `[-1]`
succeeds, returning index `0`; with argument equal to the count (`1`) it
returns the not-found sentinel `-1`.  In neither case does it fail with
`invalidPosition` — it has no error return at all. -/
theorem search_boundary_counterexample :
    Search ⟨[-1], 1⟩ (-1) = 0 ∧ Search ⟨[-1], 1⟩ 1 = -1 := by
  constructor <;> rfl

/-- C4: every fallible mutating operation that returns an error leaves the
list state (head chain and count) exactly as it was.  `Get`, `Search` and
`FindMiddle` never write the receiver in the Go code and are embedded as
pure functions, so they cannot mutate at all. -/
theorem failed_ops_preserve_state (ll : LinkedList) (d p : Int) :
    (∀ e, (InsertAt ll d p).1 = Except.error e → (InsertAt ll d p).2 = ll) ∧
    (∀ e, (DeleteFirst ll).1 = Except.error e → (DeleteFirst ll).2 = ll) ∧
    (∀ e, (DeleteLast ll).1 = Except.error e → (DeleteLast ll).2 = ll) ∧
    (∀ e, (DeleteAt ll p).1 = Except.error e → (DeleteAt ll p).2 = ll) := by
  refine ⟨?_, ?_, ?_, ?_⟩
  · intro e h
    by_cases hg : p < 0 ∨ p > ll.Size
    · simp [InsertAt, hg]
    · by_cases hz : p = 0
      · subst hz
        have hs : ¬ ll.Size < 0 := by
          push_neg at hg
          omega
        simp [InsertAt, hs] at h
      · simp [InsertAt, hg, hz] at h
  · intro e h
    obtain ⟨hd, sz⟩ := ll
    cases hd with
    | nil => rfl
    | cons x xs => simp [DeleteFirst] at h
  · intro e h
    obtain ⟨hd, sz⟩ := ll
    cases hd with
    | nil => rfl
    | cons x xs => simp [DeleteLast] at h
  · intro e h
    by_cases hg : p < 0 ∨ p ≥ ll.Size
    · simp [DeleteAt, hg]
    · by_cases hz : p = 0
      · subst hz
        obtain ⟨hd, sz⟩ := ll
        simp only [not_or] at hg
        have hs : ¬ sz ≤ 0 := by
          have := hg.2
          simp at this
          omega
        cases hd with
        | nil => simp [DeleteAt, DeleteFirst, hs]
        | cons x xs => simp [DeleteAt, DeleteFirst, hs] at h
      · simp [DeleteAt, hg, hz] at h

/-- C4 witness: failing calls at concrete states leave them unchanged. -/
theorem failed_ops_preserve_state_witness :
    (InsertAt ⟨[], 0⟩ 7 (-1)).2 = (⟨[], 0⟩ : LinkedList) ∧
    (DeleteFirst ⟨[], 0⟩).2 = (⟨[], 0⟩ : LinkedList) ∧
    (DeleteLast ⟨[], 0⟩).2 = (⟨[], 0⟩ : LinkedList) ∧
    (DeleteAt ⟨[], 0⟩ 0).2 = (⟨[], 0⟩ : LinkedList) :=
  ⟨(failed_ops_preserve_state ⟨[], 0⟩ 7 (-1)).1 (LLError.invalidPosition (-1)) rfl,
   (failed_ops_preserve_state ⟨[], 0⟩ 7 (-1)).2.1 LLError.emptyList rfl,
   (failed_ops_preserve_state ⟨[], 0⟩ 7 (-1)).2.2.1 LLError.emptyList rfl,
   (failed_ops_preserve_state ⟨[], 0⟩ 7 0).2.2.2 (LLError.invalidPosition 0) rfl⟩

/-- C5: `Reverse` reverses the value sequence while keeping the count, and
applying it twice restores the original list exactly. -/
theorem reverse_involution (ll : LinkedList) :
    ToSlice (Reverse ll) = (ToSlice ll).reverse ∧
    (Reverse ll).Size = ll.Size ∧
    Reverse (Reverse ll) = ll := by
  have h1 : ∀ l : List Int, reverseChain [] l = l.reverse := fun l => by
    simpa using reverseChain_eq [] l
  refine ⟨by simp [ToSlice, Reverse, h1], rfl, ?_⟩
  simp [Reverse, h1, List.reverse_reverse]

theorem hasCycleLoop_false (n : Nat) :
    ∀ (fuel slow fast : Nat), slow ≤ fast → hasCycleLoop n fuel slow fast = false := by
  intro fuel
  induction fuel with
  | zero => intro slow fast _; rfl
  | succ fuel ih =>
    intro slow fast h
    simp only [hasCycleLoop]
    split
    · rw [if_neg (by omega)]
      exact ih _ _ (by omega)
    · rfl

/-- Lists built from the empty list solely through the public insertion
operations: `Prepend`, `Append`, and `InsertAt` at a valid position. -/
inductive InsertionBuilt : LinkedList → Prop
  | empty : InsertionBuilt NewLinkedList
  | prepend {ll} (d : Int) : InsertionBuilt ll → InsertionBuilt (Prepend ll d)
  | append {ll} (d : Int) : InsertionBuilt ll → InsertionBuilt (Append ll d)
  | insertAt {ll} (d p : Int) : 0 ≤ p → p ≤ ll.Size → InsertionBuilt ll →
      InsertionBuilt (InsertAt ll d p).2

/-- C6: `HasCycle` returns `false` on every list built solely through the
public insertion operations.  The slow cursor trails the fast one (index
`slow ≤ fast` throughout), so Floyd's loop never sees the two cursors on
the same node of the acyclic chain. -/
theorem hasCycle_insertionBuilt {ll : LinkedList} (h : InsertionBuilt ll) :
    HasCycle ll = false := by
  obtain ⟨hd, sz⟩ := ll
  cases hd with
  | nil => rfl
  | cons x xs =>
    simp only [HasCycle]
    exact hasCycleLoop_false _ _ 0 0 (le_refl 0)

/-- C6 witness: a concretely built list has no cycle. -/
theorem hasCycle_insertionBuilt_witness :
    HasCycle (Append (Prepend NewLinkedList 1) 2) = false :=
  hasCycle_insertionBuilt
    (InsertionBuilt.append 2 (InsertionBuilt.prepend 1 InsertionBuilt.empty))

/-- The specification's notion of duplicate removal: keep the first
occurrence of each distinct value, in the original relative order. -/
def firstDedup : List Int → List Int
  | [] => []
  | x :: xs => x :: firstDedup (xs.filter (fun y => decide (y ≠ x)))
termination_by l => l.length
decreasing_by
  simp only [List.length_cons]
  exact Nat.lt_succ_of_le (List.length_filter_le _ _)

theorem removeDupChain_eq (seen l : List Int) :
    (removeDupChain seen l).1 = firstDedup (l.filter (fun y => decide (y ∉ seen))) := by
  induction l generalizing seen with
  | nil => simp [removeDupChain, firstDedup]
  | cons y ys ih =>
    by_cases hy : y ∈ seen
    · have hfil : (y :: ys).filter (fun a => decide (a ∉ seen)) =
          ys.filter (fun a => decide (a ∉ seen)) := by
        simp [List.filter_cons, hy]
      rw [hfil, ← ih seen]
      simp only [removeDupChain, if_pos hy]
    · have hfil : (y :: ys).filter (fun a => decide (a ∉ seen)) =
          y :: ys.filter (fun a => decide (a ∉ seen)) := by
        simp [List.filter_cons, hy]
      rw [hfil]
      simp only [removeDupChain, if_neg hy, firstDedup]
      rw [ih (y :: seen)]
      have hfe : (ys.filter (fun a => decide (a ∉ seen))).filter
            (fun b => decide (b ≠ y)) =
          ys.filter (fun a => decide (a ∉ y :: seen)) := by
        rw [List.filter_filter]
        refine List.filter_congr fun a _ => ?_
        by_cases h1 : a = y <;> by_cases h2 : a ∈ seen <;>
          simp [h1, h2, List.mem_cons]
      rw [hfe]

theorem firstDedup_sublist : ∀ (l : List Int), (firstDedup l).Sublist l
  | [] => by simp [firstDedup]
  | x :: xs => by
    simp only [firstDedup]
    exact List.Sublist.cons₂ x
      ((firstDedup_sublist _).trans (List.filter_sublist xs))
termination_by l => l.length
decreasing_by
  simp only [List.length_cons]
  exact Nat.lt_succ_of_le (List.length_filter_le _ _)

theorem firstDedup_length : ∀ (l : List Int),
    (firstDedup l).length = l.toFinset.card
  | [] => by simp [firstDedup]
  | x :: xs => by
    simp only [firstDedup]
    rw [List.length_cons, firstDedup_length (xs.filter (fun y => decide (y ≠ x)))]
    rw [List.toFinset_cons, List.toFinset_filter]
    have hf : xs.toFinset.filter (fun a => decide (a ≠ x)) = xs.toFinset.erase x := by
      rw [← Finset.filter_ne' xs.toFinset x]
      exact Finset.filter_congr fun a _ => by simp
    rw [hf]
    by_cases hx : x ∈ xs.toFinset
    · rw [Finset.insert_eq_self.mpr hx, Finset.card_erase_add_one hx]
    · rw [Finset.erase_eq_of_not_mem hx, Finset.card_insert_of_not_mem hx]
termination_by l => l.length
decreasing_by
  simp only [List.length_cons]
  exact Nat.lt_succ_of_le (List.length_filter_le _ _)

/-- C7: `RemoveDuplicates` keeps exactly the first occurrence of each
distinct value, in the original relative order (the result is the
first-occurrence dedup of the chain and a sublist of it), and the count
becomes the number of distinct values; on `[1,2,2,3,3,3,4,5,5]` the result
is `[1,2,3,4,5]` with count `5`. -/
theorem removeDuplicates_spec (ll : LinkedList) (h : SizeInv ll) :
    (RemoveDuplicates ll).Head = firstDedup ll.Head ∧
    (RemoveDuplicates ll).Head.Sublist ll.Head ∧
    (RemoveDuplicates ll).Size = (ll.Head.toFinset.card : Int) ∧
    RemoveDuplicates ⟨[1, 2, 2, 3, 3, 3, 4, 5, 5], 9⟩ = ⟨[1, 2, 3, 4, 5], 5⟩ := by
  have hhead : (RemoveDuplicates ll).Head = firstDedup ll.Head := by
    obtain ⟨hd, sz⟩ := ll
    cases hd with
    | nil => simp [RemoveDuplicates, firstDedup]
    | cons x xs =>
      simp only [RemoveDuplicates, firstDedup]
      rw [removeDupChain_eq [x] xs]
      have : xs.filter (fun a => decide (a ∉ [x])) =
          xs.filter (fun y => decide (y ≠ x)) :=
        List.filter_congr fun a _ => by
          by_cases hax : a = x <;> simp [hax]
      rw [this]
  refine ⟨hhead, ?_, ?_, by decide⟩
  · rw [hhead]
    exact firstDedup_sublist ll.Head
  · obtain ⟨hd, sz⟩ := ll
    cases hd with
    | nil => simpa [RemoveDuplicates] using h
    | cons x xs =>
      have hlen := removeDupChain_length [x] xs
      have hfd : (RemoveDuplicates ⟨x :: xs, sz⟩).Head.length =
          (x :: xs).toFinset.card := by
        rw [hhead, firstDedup_length]
      simp only [RemoveDuplicates, List.length_cons] at hfd
      simp only [SizeInv, List.length_cons] at h
      simp only [RemoveDuplicates]
      omega

/-- C7 witness: the specification's worked example. -/
theorem removeDuplicates_spec_witness :
    RemoveDuplicates ⟨[1, 2, 2, 3, 3, 3, 4, 5, 5], 9⟩ = ⟨[1, 2, 3, 4, 5], 5⟩ :=
  (removeDuplicates_spec ⟨[1, 2, 2, 3, 3, 3, 4, 5, 5], 9⟩ (by decide)).2.2.2

/-!
Embedding of src/go/algorithms/sorting/merge_sort.go.  The in-place
`mergeSortHelper(arr, left, right)` acts on the subrange `arr[left..right]`
only; a call on a range of length `m` splits at `mid = left + (right-left)/2`,
i.e. after the first `(m-1)/2 + 1` elements of the range, recursively sorts
the two halves, and merges them.  The embedding carries the subrange as a
list, so the split is `take ((m-1)/2 + 1)` / `drop ((m-1)/2 + 1)`.
-/

/-- `merge`: combine two sorted runs; `leftArr[i] <= rightArr[j]` takes from
the left run first, which is what makes the sort stable. -/
def merge : List Int → List Int → List Int
  | [], ys => ys
  | xs, [] => xs
  | x :: xs, y :: ys =>
    if x ≤ y then x :: merge xs (y :: ys)
    else y :: merge (x :: xs) ys
termination_by xs ys => xs.length + ys.length

/-- `mergeSortHelper`: ranges of fewer than two elements are left alone
(`left < right` fails); otherwise split at `mid`, sort both halves, merge. -/
def mergeSortHelper (l : List Int) : List Int :=
  if h : l.length ≤ 1 then l
  else
    merge (mergeSortHelper (l.take ((l.length - 1) / 2 + 1)))
      (mergeSortHelper (l.drop ((l.length - 1) / 2 + 1)))
termination_by l.length
decreasing_by
  · simp only [List.length_take]
    omega
  · simp only [List.length_drop]
    omega

/-- `MergeSort`: length at most one returns the input slice unchanged;
otherwise the helper sorts a copy of the whole array (the Go code copies
the input before the in-place recursion, which the value semantics of the
embedding models directly). -/
def MergeSort (arr : List Int) : List Int :=
  if arr.length ≤ 1 then arr
  else mergeSortHelper arr

theorem merge_perm : ∀ (xs ys : List Int), (merge xs ys).Perm (xs ++ ys)
  | [], ys => by simp [merge]
  | x :: xs, [] => by simp [merge]
  | x :: xs, y :: ys => by
    simp only [merge]
    split
    · exact (merge_perm xs (y :: ys)).cons x
    · refine ((merge_perm (x :: xs) ys).cons y).trans ?_
      exact List.perm_middle.symm
termination_by xs ys => xs.length + ys.length

theorem sorted_of_length_le_one {l : List Int} (h : l.length ≤ 1) :
    l.Sorted (· ≤ ·) := by
  match l, h with
  | [], _ => exact List.sorted_nil
  | [x], _ => exact List.sorted_singleton x

theorem merge_sorted : ∀ (xs ys : List Int), xs.Sorted (· ≤ ·) →
    ys.Sorted (· ≤ ·) → (merge xs ys).Sorted (· ≤ ·)
  | [], ys, _, hy => by simpa [merge] using hy
  | x :: xs, [], hx, _ => by simpa [merge] using hx
  | x :: xs, y :: ys, hx, hy => by
    simp only [merge]
    split <;> rename_i hxy
    · rw [List.sorted_cons] at hx ⊢
      refine ⟨?_, merge_sorted xs (y :: ys) hx.2 hy⟩
      intro b hb
      rcases List.mem_append.mp ((merge_perm xs (y :: ys)).mem_iff.mp hb) with h1 | h2
      · exact hx.1 b h1
      · rcases List.mem_cons.mp h2 with rfl | h3
        · exact hxy
        · exact le_trans hxy ((List.sorted_cons.mp hy).1 b h3)
    · rw [List.sorted_cons] at hy ⊢
      have hyx : y < x := lt_of_not_ge hxy
      refine ⟨?_, merge_sorted (x :: xs) ys hx hy.2⟩
      intro b hb
      rcases List.mem_append.mp ((merge_perm (x :: xs) ys).mem_iff.mp hb) with h1 | h2
      · rcases List.mem_cons.mp h1 with rfl | h3
        · exact le_of_lt hyx
        · exact le_trans (le_of_lt hyx) ((List.sorted_cons.mp hx).1 b h3)
      · exact hy.1 b h2
termination_by xs ys => xs.length + ys.length

theorem mergeSortHelper_perm (l : List Int) : (mergeSortHelper l).Perm l := by
  rw [mergeSortHelper.eq_def]
  split
  · exact List.Perm.refl l
  · refine (merge_perm _ _).trans ?_
    refine (List.Perm.append (mergeSortHelper_perm _) (mergeSortHelper_perm _)).trans ?_
    rw [List.take_append_drop]
termination_by l.length
decreasing_by
  · simp only [List.length_take]
    omega
  · simp only [List.length_drop]
    omega

theorem mergeSortHelper_sorted (l : List Int) :
    (mergeSortHelper l).Sorted (· ≤ ·) := by
  rw [mergeSortHelper.eq_def]
  split
  · rename_i h
    exact sorted_of_length_le_one h
  · exact merge_sorted _ _ (mergeSortHelper_sorted _) (mergeSortHelper_sorted _)
termination_by l.length
decreasing_by
  · simp only [List.length_take]
    omega
  · simp only [List.length_drop]
    omega

/-- The merging step instrumented with a tag on each element: the comparison
reads only the value component, exactly as `merge` compares `leftArr[i]` and
`rightArr[j]`, and the `<=` tie again prefers the left run. -/
def mergeKeyed : List (Int × Nat) → List (Int × Nat) → List (Int × Nat)
  | [], ys => ys
  | xs, [] => xs
  | x :: xs, y :: ys =>
    if x.1 ≤ y.1 then x :: mergeKeyed xs (y :: ys)
    else y :: mergeKeyed (x :: xs) ys
termination_by xs ys => xs.length + ys.length

/-- `mergeSortHelper` instrumented with tags, mirroring the recursion and
split point exactly. -/
def mergeSortHelperKeyed (l : List (Int × Nat)) : List (Int × Nat) :=
  if h : l.length ≤ 1 then l
  else
    mergeKeyed (mergeSortHelperKeyed (l.take ((l.length - 1) / 2 + 1)))
      (mergeSortHelperKeyed (l.drop ((l.length - 1) / 2 + 1)))
termination_by l.length
decreasing_by
  · simp only [List.length_take]
    omega
  · simp only [List.length_drop]
    omega

/-- Tag every element of an array with its original position. -/
def tagged (arr : List Int) : List (Int × Nat) := arr.zip (List.range arr.length)

theorem mergeKeyed_perm : ∀ (xs ys : List (Int × Nat)),
    (mergeKeyed xs ys).Perm (xs ++ ys)
  | [], ys => by simp [mergeKeyed]
  | x :: xs, [] => by simp [mergeKeyed]
  | x :: xs, y :: ys => by
    simp only [mergeKeyed]
    split
    · exact (mergeKeyed_perm xs (y :: ys)).cons x
    · refine ((mergeKeyed_perm (x :: xs) ys).cons y).trans ?_
      exact List.perm_middle.symm
termination_by xs ys => xs.length + ys.length

theorem keyedSorted_of_length_le_one {l : List (Int × Nat)} (h : l.length ≤ 1) :
    l.Sorted (fun p q => p.1 ≤ q.1) := by
  match l, h with
  | [], _ => exact List.sorted_nil
  | [x], _ => exact List.sorted_singleton x

theorem mergeKeyed_sorted : ∀ (xs ys : List (Int × Nat)),
    xs.Sorted (fun p q => p.1 ≤ q.1) → ys.Sorted (fun p q => p.1 ≤ q.1) →
    (mergeKeyed xs ys).Sorted (fun p q => p.1 ≤ q.1)
  | [], ys, _, hy => by simpa [mergeKeyed] using hy
  | x :: xs, [], hx, _ => by simpa [mergeKeyed] using hx
  | x :: xs, y :: ys, hx, hy => by
    simp only [mergeKeyed]
    split <;> rename_i hxy
    · rw [List.sorted_cons] at hx ⊢
      refine ⟨?_, mergeKeyed_sorted xs (y :: ys) hx.2 hy⟩
      intro b hb
      rcases List.mem_append.mp ((mergeKeyed_perm xs (y :: ys)).mem_iff.mp hb) with h1 | h2
      · exact hx.1 b h1
      · rcases List.mem_cons.mp h2 with rfl | h3
        · exact hxy
        · exact le_trans hxy ((List.sorted_cons.mp hy).1 b h3)
    · rw [List.sorted_cons] at hy ⊢
      have hyx : y.1 < x.1 := lt_of_not_ge hxy
      refine ⟨?_, mergeKeyed_sorted (x :: xs) ys hx hy.2⟩
      intro b hb
      rcases List.mem_append.mp ((mergeKeyed_perm (x :: xs) ys).mem_iff.mp hb) with h1 | h2
      · rcases List.mem_cons.mp h1 with rfl | h3
        · exact le_of_lt hyx
        · exact le_trans (le_of_lt hyx) ((List.sorted_cons.mp hx).1 b h3)
      · exact hy.1 b h2
termination_by xs ys => xs.length + ys.length

theorem mergeSortHelperKeyed_sorted (l : List (Int × Nat)) :
    (mergeSortHelperKeyed l).Sorted (fun p q => p.1 ≤ q.1) := by
  rw [mergeSortHelperKeyed.eq_def]
  split
  · rename_i h
    exact keyedSorted_of_length_le_one h
  · exact mergeKeyed_sorted _ _ (mergeSortHelperKeyed_sorted _)
      (mergeSortHelperKeyed_sorted _)
termination_by l.length
decreasing_by
  · simp only [List.length_take]
    omega
  · simp only [List.length_drop]
    omega

theorem filter_key_eq_nil {v : Int} {x : Int × Nat} {xs : List (Int × Nat)}
    (hx : (x :: xs).Sorted (fun p q => p.1 ≤ q.1)) (hv : v < x.1) :
    (x :: xs).filter (fun p => p.1 == v) = [] := by
  rw [List.filter_eq_nil_iff]
  intro p hp
  have hkey : x.1 ≤ p.1 := by
    rcases List.mem_cons.mp hp with rfl | h3
    · exact le_refl _
    · exact (List.sorted_cons.mp hx).1 p h3
  simp only [beq_iff_eq]
  omega

theorem mergeKeyed_filter (v : Int) : ∀ (xs ys : List (Int × Nat)),
    xs.Sorted (fun p q => p.1 ≤ q.1) → ys.Sorted (fun p q => p.1 ≤ q.1) →
    (mergeKeyed xs ys).filter (fun p => p.1 == v) =
      xs.filter (fun p => p.1 == v) ++ ys.filter (fun p => p.1 == v)
  | [], ys, _, _ => by simp [mergeKeyed]
  | x :: xs, [], _, _ => by simp [mergeKeyed]
  | x :: xs, y :: ys, hx, hy => by
    simp only [mergeKeyed]
    split <;> rename_i hxy
    · rw [List.filter_cons, List.filter_cons,
        mergeKeyed_filter v xs (y :: ys) (List.sorted_cons.mp hx).2 hy]
      cases hxv : (x.1 == v) <;> simp [hxv]
    · have hyx : y.1 < x.1 := lt_of_not_ge hxy
      rw [List.filter_cons,
        mergeKeyed_filter v (x :: xs) ys hx (List.sorted_cons.mp hy).2]
      cases hyv : (y.1 == v) with
      | false =>
        rw [if_neg (by simp [hyv])]
        rw [show (y :: ys).filter (fun p => p.1 == v) =
              ys.filter (fun p => p.1 == v) by
            rw [List.filter_cons, if_neg (by simp [hyv])]]
      | true =>
        rw [if_pos (by simp [hyv])]
        have hveq : v = y.1 := (beq_iff_eq.mp hyv).symm
        have hnil : (x :: xs).filter (fun p => p.1 == v) = [] :=
          filter_key_eq_nil hx (by omega)
        rw [show (y :: ys).filter (fun p => p.1 == v) =
              y :: ys.filter (fun p => p.1 == v) by
            rw [List.filter_cons, if_pos (by simp [hyv])]]
        rw [hnil]
        simp
termination_by xs ys => xs.length + ys.length

theorem mergeSortHelperKeyed_filter (v : Int) (l : List (Int × Nat)) :
    (mergeSortHelperKeyed l).filter (fun p => p.1 == v) =
      l.filter (fun p => p.1 == v) := by
  rw [mergeSortHelperKeyed.eq_def]
  split
  · rfl
  · rw [mergeKeyed_filter v _ _ (mergeSortHelperKeyed_sorted _)
      (mergeSortHelperKeyed_sorted _)]
    rw [mergeSortHelperKeyed_filter v (l.take ((l.length - 1) / 2 + 1)),
      mergeSortHelperKeyed_filter v (l.drop ((l.length - 1) / 2 + 1))]
    rw [← List.filter_append, List.take_append_drop]
termination_by l.length
decreasing_by
  · simp only [List.length_take]
    omega
  · simp only [List.length_drop]
    omega

theorem map_fst_mergeKeyed : ∀ (xs ys : List (Int × Nat)),
    (mergeKeyed xs ys).map Prod.fst = merge (xs.map Prod.fst) (ys.map Prod.fst)
  | [], ys => by simp [mergeKeyed, merge]
  | x :: xs, [] => by simp [mergeKeyed, merge]
  | x :: xs, y :: ys => by
    simp only [mergeKeyed, List.map_cons, merge]
    by_cases hxy : x.1 ≤ y.1
    · rw [if_pos hxy, if_pos hxy, List.map_cons,
        ← List.map_cons Prod.fst y ys, map_fst_mergeKeyed xs (y :: ys)]
    · rw [if_neg hxy, if_neg hxy, List.map_cons,
        ← List.map_cons Prod.fst x xs, map_fst_mergeKeyed (x :: xs) ys]
termination_by xs ys => xs.length + ys.length

theorem map_fst_mergeSortHelperKeyed (l : List (Int × Nat)) :
    (mergeSortHelperKeyed l).map Prod.fst = mergeSortHelper (l.map Prod.fst) := by
  rw [mergeSortHelperKeyed.eq_def, mergeSortHelper.eq_def]
  by_cases h : l.length ≤ 1
  · rw [dif_pos h, dif_pos (by simpa using h)]
  · rw [dif_neg h, dif_neg (by simpa using h)]
    rw [map_fst_mergeKeyed,
      map_fst_mergeSortHelperKeyed (l.take ((l.length - 1) / 2 + 1)),
      map_fst_mergeSortHelperKeyed (l.drop ((l.length - 1) / 2 + 1))]
    rw [List.map_take, List.map_drop, List.length_map]
termination_by l.length
decreasing_by
  · simp only [List.length_take]
    omega
  · simp only [List.length_drop]
    omega

theorem tagged_map_fst (arr : List Int) : (tagged arr).map Prod.fst = arr :=
  List.map_fst_zip arr (List.range arr.length) (by simp)

theorem tagged_length (arr : List Int) : (tagged arr).length = arr.length := by
  simp [tagged]

/-- C8: `MergeSort` returns a non-descending permutation of its input, and
it is stable: running the identical splitting and merging over the input
with each element tagged by its original position projects back to
`MergeSort` of the input, and for every value the tagged occurrences of
that value come out exactly in their original order.  The Go code copies
the input before its in-place recursion (lines 34-38), so the input array
is not modified — the embedding's value semantics models that copy. -/
theorem mergeSort_spec (arr : List Int) :
    (MergeSort arr).Sorted (· ≤ ·) ∧
    (MergeSort arr).Perm arr ∧
    (mergeSortHelperKeyed (tagged arr)).map Prod.fst = MergeSort arr ∧
    ∀ v, (mergeSortHelperKeyed (tagged arr)).filter (fun p => p.1 == v) =
      (tagged arr).filter (fun p => p.1 == v) := by
  refine ⟨?_, ?_, ?_, fun v => mergeSortHelperKeyed_filter v (tagged arr)⟩
  · rw [MergeSort]
    split <;> rename_i h
    · exact sorted_of_length_le_one h
    · exact mergeSortHelper_sorted arr
  · rw [MergeSort]
    split <;> rename_i h
    · exact List.Perm.refl arr
    · exact mergeSortHelper_perm arr
  · rw [map_fst_mergeSortHelperKeyed, tagged_map_fst, MergeSort,
      mergeSortHelper.eq_def]
    split <;> rfl

/-- `mergeAndCount`: the merge loop that additionally counts, whenever an
element of the right run is taken, the remaining `len(leftArr) - i`
elements of the left run as inversions. -/
def mergeAndCount : List Int → List Int → List Int × Nat
  | [], ys => (ys, 0)
  | xs, [] => (xs, 0)
  | x :: xs, y :: ys =>
    if x ≤ y then
      let r := mergeAndCount xs (y :: ys)
      (x :: r.1, r.2)
    else
      let r := mergeAndCount (x :: xs) ys
      (y :: r.1, r.2 + (x :: xs).length)
termination_by xs ys => xs.length + ys.length

/-- `countInversionsHelper`: recursion and split point exactly as in
`mergeSortHelper`, summing the two recursive counts and the merge count. -/
def countInversionsHelper (l : List Int) : List Int × Nat :=
  if _h : l.length ≤ 1 then (l, 0)
  else
    let r1 := countInversionsHelper (l.take ((l.length - 1) / 2 + 1))
    let r2 := countInversionsHelper (l.drop ((l.length - 1) / 2 + 1))
    let m := mergeAndCount r1.1 r2.1
    (m.1, r1.2 + r2.2 + m.2)
termination_by l.length
decreasing_by
  · simp only [List.length_take]
    omega
  · simp only [List.length_drop]
    omega

/-- `CountInversions`: sorts a copy of the whole array while counting the
inversions encountered during merging. -/
def CountInversions (arr : List Int) : List Int × Nat :=
  countInversionsHelper arr

/-- The specification's inversion count of a sequence: the number of pairs
of positions `i < j` whose values are out of order, summed head-first —
each element contributes the later elements strictly below it. -/
def inversions : List Int → Nat
  | [] => 0
  | x :: xs => xs.countP (fun y => decide (y < x)) + inversions xs

/-- Cross inversions between two runs: pairs with the larger element in
`xs` (the earlier run) and the smaller in `ys` (the later run). -/
def crossCount (xs ys : List Int) : Nat :=
  (ys.map (fun b => xs.countP (fun a => decide (b < a)))).sum

theorem crossCount_nil_right (xs : List Int) : crossCount xs [] = 0 := by
  simp [crossCount]

theorem crossCount_cons_right (xs : List Int) (y : Int) (ys : List Int) :
    crossCount xs (y :: ys) =
      xs.countP (fun a => decide (y < a)) + crossCount xs ys := by
  simp [crossCount]

theorem crossCount_nil_left (ys : List Int) : crossCount [] ys = 0 := by
  induction ys with
  | nil => simp [crossCount]
  | cons y ys ih =>
    rw [crossCount_cons_right, ih, List.countP_nil]

theorem crossCount_cons_left (x : Int) (xs ys : List Int) :
    crossCount (x :: xs) ys =
      ys.countP (fun b => decide (b < x)) + crossCount xs ys := by
  induction ys with
  | nil => simp [crossCount_nil_right, List.countP_nil]
  | cons y ys ih =>
    rw [crossCount_cons_right, crossCount_cons_right, ih,
      List.countP_cons, List.countP_cons]
    by_cases h : y < x <;> simp [h] <;> omega

theorem inversions_append (a b : List Int) :
    inversions (a ++ b) = inversions a + inversions b + crossCount a b := by
  induction a with
  | nil => simp [inversions, crossCount_nil_left]
  | cons x a ih =>
    rw [List.cons_append]
    rw [show inversions (x :: (a ++ b)) =
        (a ++ b).countP (fun y => decide (y < x)) + inversions (a ++ b) from rfl]
    rw [show inversions (x :: a) =
        a.countP (fun y => decide (y < x)) + inversions a from rfl]
    rw [ih, List.countP_append, crossCount_cons_left]
    omega

theorem crossCount_perm_left {xs xs' : List Int} (h : xs.Perm xs')
    (ys : List Int) : crossCount xs ys = crossCount xs' ys := by
  induction ys with
  | nil => simp [crossCount_nil_right]
  | cons y ys ih =>
    rw [crossCount_cons_right, crossCount_cons_right, ih, h.countP_eq]

theorem crossCount_perm_right (xs : List Int) {ys ys' : List Int}
    (h : ys.Perm ys') : crossCount xs ys = crossCount xs ys' := by
  simp only [crossCount]
  exact (h.map _).sum_eq

theorem mergeAndCount_fst : ∀ (xs ys : List Int),
    (mergeAndCount xs ys).1 = merge xs ys
  | [], ys => by simp [mergeAndCount, merge]
  | x :: xs, [] => by simp [mergeAndCount, merge]
  | x :: xs, y :: ys => by
    simp only [mergeAndCount, merge]
    split
    · simp [mergeAndCount_fst xs (y :: ys)]
    · simp [mergeAndCount_fst (x :: xs) ys]
termination_by xs ys => xs.length + ys.length

theorem mergeAndCount_snd : ∀ (xs ys : List Int), xs.Sorted (· ≤ ·) →
    ys.Sorted (· ≤ ·) → (mergeAndCount xs ys).2 = crossCount xs ys
  | [], ys, _, _ => by simp [mergeAndCount, crossCount_nil_left]
  | x :: xs, [], _, _ => by simp [mergeAndCount, crossCount_nil_right]
  | x :: xs, y :: ys, hx, hy => by
    simp only [mergeAndCount]
    split <;> rename_i hxy
    · rw [show ((x :: (mergeAndCount xs (y :: ys)).1, (mergeAndCount xs (y :: ys)).2) :
          List Int × Nat).2 = (mergeAndCount xs (y :: ys)).2 from rfl]
      rw [mergeAndCount_snd xs (y :: ys) (List.sorted_cons.mp hx).2 hy]
      rw [crossCount_cons_left]
      have h0 : (y :: ys).countP (fun b => decide (b < x)) = 0 := by
        rw [List.countP_eq_zero]
        intro b hb
        simp only [decide_eq_true_eq, not_lt]
        rcases List.mem_cons.mp hb with rfl | hb2
        · exact hxy
        · exact le_trans hxy ((List.sorted_cons.mp hy).1 b hb2)
      rw [h0]
      omega
    · have hyx : y < x := lt_of_not_ge hxy
      rw [show ((y :: (mergeAndCount (x :: xs) ys).1,
          (mergeAndCount (x :: xs) ys).2 + (x :: xs).length) :
          List Int × Nat).2 =
          (mergeAndCount (x :: xs) ys).2 + (x :: xs).length from rfl]
      rw [mergeAndCount_snd (x :: xs) ys hx (List.sorted_cons.mp hy).2]
      rw [crossCount_cons_right]
      have hall : (x :: xs).countP (fun a => decide (y < a)) = (x :: xs).length := by
        rw [List.countP_eq_length]
        intro a ha
        simp only [decide_eq_true_eq]
        rcases List.mem_cons.mp ha with rfl | ha2
        · exact hyx
        · exact lt_of_lt_of_le hyx ((List.sorted_cons.mp hx).1 a ha2)
      rw [hall]
      omega
termination_by xs ys => xs.length + ys.length

theorem inversions_of_length_le_one {l : List Int} (h : l.length ≤ 1) :
    inversions l = 0 := by
  match l, h with
  | [], _ => rfl
  | [x], _ => simp [inversions]

theorem countInversionsHelper_spec (l : List Int) :
    (countInversionsHelper l).1.Sorted (· ≤ ·) ∧
    (countInversionsHelper l).1.Perm l ∧
    (countInversionsHelper l).2 = inversions l := by
  rw [countInversionsHelper.eq_def]
  split <;> rename_i h
  · exact ⟨sorted_of_length_le_one h, List.Perm.refl l,
      (inversions_of_length_le_one h).symm⟩
  · obtain ⟨s1, p1, c1⟩ :=
      countInversionsHelper_spec (l.take ((l.length - 1) / 2 + 1))
    obtain ⟨s2, p2, c2⟩ :=
      countInversionsHelper_spec (l.drop ((l.length - 1) / 2 + 1))
    simp only
    refine ⟨?_, ?_, ?_⟩
    · rw [mergeAndCount_fst]
      exact merge_sorted _ _ s1 s2
    · rw [mergeAndCount_fst]
      refine (merge_perm _ _).trans ?_
      refine (List.Perm.append p1 p2).trans ?_
      rw [List.take_append_drop]
    · rw [mergeAndCount_snd _ _ s1 s2, c1, c2,
        crossCount_perm_left p1, crossCount_perm_right _ p2]
      conv_rhs => rw [← List.take_append_drop ((l.length - 1) / 2 + 1) l]
      rw [inversions_append]
termination_by l.length
decreasing_by
  · simp only [List.length_take]
    omega
  · simp only [List.length_drop]
    omega

/-- C9: `CountInversions` returns a non-descending permutation of the input
together with exactly the input's inversion count — the number of position
pairs `i < j` with `arr[i] > arr[j]`. -/
theorem countInversions_spec (arr : List Int) :
    (CountInversions arr).1.Sorted (· ≤ ·) ∧
    (CountInversions arr).1.Perm arr ∧
    (CountInversions arr).2 = inversions arr :=
  countInversionsHelper_spec arr

/-!
Embedding of the binary-search utilities (the unnamed Go source file).
`FindInsertionPoint` keeps a half-open window `[left, right)`: while
`left < right` it probes `mid = left + (right-left)/2`, moving `left` past
`mid` when `arr[mid] < target` and closing `right` down to `mid` otherwise,
and returns `left`.  `arr[mid]` is embedded as `getD mid 0`; the loop only
probes `mid < right ≤ len(arr)`, so the default is never read under the
stated precondition. -/
def fipLoop (arr : List Int) (target : Int) (left right : Nat) : Nat :=
  if _h : left < right then
    if arr.getD (left + (right - left) / 2) 0 < target then
      fipLoop arr target (left + (right - left) / 2 + 1) right
    else
      fipLoop arr target left (left + (right - left) / 2)
  else left
termination_by right - left
decreasing_by
  · omega
  · omega

/-- `FindInsertionPoint`: binary search for the leftmost position whose
element is at least `target`, starting from the window `[0, len(arr))`. -/
def FindInsertionPoint (arr : List Int) (target : Int) : Nat :=
  fipLoop arr target 0 arr.length

theorem sorted_getD_mono {l : List Int} (hs : l.Sorted (· ≤ ·)) {i j : Nat}
    (hij : i ≤ j) (hj : j < l.length) : l.getD i 0 ≤ l.getD j 0 := by
  have hi : i < l.length := lt_of_le_of_lt hij hj
  rw [List.getD_eq_getElem _ _ hi, List.getD_eq_getElem _ _ hj]
  rcases Nat.lt_or_ge i j with hlt | hge
  · exact List.pairwise_iff_getElem.mp hs i j hi hj hlt
  · have : i = j := le_antisymm hij hge
    subst this
    exact le_refl _

theorem fipLoop_spec (arr : List Int) (target : Int)
    (hs : arr.Sorted (· ≤ ·)) (left right : Nat)
    (hlr : left ≤ right) (hrn : right ≤ arr.length)
    (hleft : ∀ i, i < left → arr.getD i 0 < target)
    (hright : ∀ i, right ≤ i → i < arr.length → target ≤ arr.getD i 0) :
    (∀ i, i < fipLoop arr target left right → arr.getD i 0 < target) ∧
    (∀ i, fipLoop arr target left right ≤ i → i < arr.length →
      target ≤ arr.getD i 0) ∧
    fipLoop arr target left right ≤ arr.length := by
  rw [fipLoop.eq_def]
  split <;> rename_i h
  · split <;> rename_i hcmp
    · refine fipLoop_spec arr target hs (left + (right - left) / 2 + 1) right
        (by omega) hrn ?_ hright
      intro i hi
      by_cases hil : i < left
      · exact hleft i hil
      · have hmid : left + (right - left) / 2 < arr.length := by omega
        exact lt_of_le_of_lt (sorted_getD_mono hs (by omega) hmid) hcmp
    · refine fipLoop_spec arr target hs left (left + (right - left) / 2)
        (by omega) (by omega) hleft ?_
      intro i hmi hin
      by_cases hir : right ≤ i
      · exact hright i hir hin
      · exact le_trans (le_of_not_lt hcmp) (sorted_getD_mono hs hmi hin)
  · refine ⟨fun i hi => hleft i hi, fun i hi hin => hright i (by omega) hin,
      by omega⟩
termination_by right - left
decreasing_by
  · omega
  · omega

/-- C10: on a sorted array, `FindInsertionPoint` returns the least index
whose element is at least `target` (the array's length when every element
is below `target`): every index before the result holds an element below
`target` and every index from the result on holds one at least `target`,
so inserting `target` there keeps the array sorted, in front of any equal
elements already present. -/
theorem findInsertionPoint_spec (arr : List Int) (target : Int)
    (hs : arr.Sorted (· ≤ ·)) :
    FindInsertionPoint arr target ≤ arr.length ∧
    (∀ i, i < FindInsertionPoint arr target → arr.getD i 0 < target) ∧
    (∀ i, FindInsertionPoint arr target ≤ i → i < arr.length →
      target ≤ arr.getD i 0) := by
  have h := fipLoop_spec arr target hs 0 arr.length (Nat.zero_le _) (le_refl _)
    (fun i hi => absurd hi (Nat.not_lt_zero i))
    (fun i hi hin => absurd hin (by omega))
  exact ⟨h.2.2, h.1, h.2.1⟩

/-- C10 witness: the Go test's example, `[10,20,30,40,50]` with target 35. -/
theorem findInsertionPoint_spec_witness :
    FindInsertionPoint [10, 20, 30, 40, 50] 35 ≤
      ([10, 20, 30, 40, 50] : List Int).length ∧
    (35 : Int) ≤ [10, 20, 30, 40, 50].getD (FindInsertionPoint [10, 20, 30, 40, 50] 35) 0 := by
  have h := findInsertionPoint_spec [10, 20, 30, 40, 50] 35 (by decide)
  refine ⟨h.1, ?_⟩
  by_cases hlt : FindInsertionPoint [10, 20, 30, 40, 50] 35 <
      ([10, 20, 30, 40, 50] : List Int).length
  · exact h.2.2 _ (le_refl _) hlt
  · have h5 : FindInsertionPoint [10, 20, 30, 40, 50] 35 = 5 := by
      have := h.1
      simp only [List.length_cons, List.length_nil] at this hlt
      omega
    have h50 := h.2.1 4 (by omega)
    norm_num at h50

end DSA
